import Mathlib

/-
Verification of the byte-scanning kernels in Corrade's
src/Corrade/Containers/StringView.cpp and of the FeatureSet ordering
exercised by src/Corrade/Test/SimdTest.cpp.

Shallow embedding conventions:

* Memory is modelled as a total function `mem : Nat → Nat` from addresses to
  byte values, and a buffer is a base address `data` plus a length `size`.
  This keeps pointer alignment observable, which the 128/256-bit kernels
  depend on (`(data + 16) & ~0xf`).  A returned `const char*` becomes
  `Option Nat` holding the absolute address; the null not-found sentinel is
  `none`.
* Purely scalar operations that never inspect the numeric pointer value
  (substring search, any-of search, backward character search) are modelled
  over `List Nat` of bytes, returning `Option Nat` offsets.
* A 16/32-lane compare + movemask + tzcnt sequence returns the address of the
  lowest matching lane of the window, or null when the mask is zero; this is
  embedded as `findInWindow`, a first-match scan over the window's addresses.
-/

namespace Corrade

/-- Embedding of libc `memchr(data, c, n)` as used by the `Cpu::Scalar` tier
of `stringFindCharacterImplementation`: address of the first byte equal to
`c` among the `n` bytes starting at `data`, or null. -/
def memchr (mem : Nat → Nat) (data c : Nat) : Nat → Option Nat
  | 0 => none
  | n + 1 => if mem data = c then some data else memchr mem (data + 1) c n

/-- The `Cpu::Scalar` tier of `stringFindCharacterImplementation`, which just
returns `std::memchr(data, character, size)`. -/
def stringFindCharacterScalar (mem : Nat → Nat) (data size c : Nat) : Option Nat :=
  memchr mem data c size

/-- The short-input loop `for(const char* i = data; i != end; ++i)` used by
the SSE2 tier when `size < 16`: per-byte scan over addresses `[i, e)`. -/
def scalarByteScan (mem : Nat → Nat) (c i e : Nat) : Option Nat :=
  if h : i < e then
    if mem i = c then some i else scalarByteScan mem c (i + 1) e
  else none
termination_by e - i
decreasing_by omega

/-- One vector load at address `a` of width `w`, byte-compared against the
broadcast character, movemask, and `_tzcnt_u32` of the mask: the address of
the lowest matching lane in `[a, a + w)`, or null when the mask is zero
(`findCharacterSingleVectorUnaligned` / `findCharacterSingleVector`). -/
def findInWindow (mem : Nat → Nat) (c a : Nat) : Nat → Option Nat
  | 0 => none
  | w + 1 => if mem a = c then some a else findInWindow mem c (a + 1) w

/-- The trailing part of the vector kernels: the single-vector aligned loop
`for(; i + 16 <= end; i += 16)` followed by the final overlapping unaligned
load at `end - 16` when `i < end`, generic in the vector width `w`. -/
def findCharTail (mem : Nat → Nat) (c w : Nat) (hw : 0 < w) (e i : Nat) : Option Nat :=
  if h : i + w ≤ e then
    match findInWindow mem c i w with
    | some r => some r
    | none => findCharTail mem c w hw e (i + w)
  else if i < e then
    findInWindow mem c (e - w) w
  else none
termination_by e - i
decreasing_by omega

/-- The four-vectors-at-a-time aligned loop `for(; i + 4*16 < end; i += 4*16)`
of the vector kernels, generic in the vector width `w`.  The code ORs the four
per-vector compare masks and, when the combined mask is non-zero, re-tests the
four masks in order; that is embedded as matching the four window results in
order (the `or3` test is zero exactly when all four are null, and the
debug-unreachable branch cannot fire).  Falls through to `findCharTail`. -/
def findCharMain (mem : Nat → Nat) (c w : Nat) (hw : 0 < w) (e i : Nat) : Option Nat :=
  if h : i + 4 * w < e then
    match findInWindow mem c i w, findInWindow mem c (i + w) w,
          findInWindow mem c (i + 2 * w) w, findInWindow mem c (i + 3 * w) w with
    | some r, _, _, _ => some r
    | none, some r, _, _ => some r
    | none, none, some r, _ => some r
    | none, none, none, some r => some r
    | none, none, none, none => findCharMain mem c w hw e (i + 4 * w)
  else findCharTail mem c w hw e i
termination_by e - i
decreasing_by omega

/-- The `Cpu::Sse2|Cpu::Bmi1` tier of `stringFindCharacterImplementation`:
sizes below 16 take the per-byte scalar loop, otherwise one unconditional
unaligned 16-byte lookup at `data`, then the aligned loops starting at the
next 16-aligned position `(data + 16) & ~0xf`, which for addresses is
`(data + 16) / 16 * 16`. -/
def stringFindCharacterSse2 (mem : Nat → Nat) (data size c : Nat) : Option Nat :=
  if size < 16 then scalarByteScan mem c data (data + size)
  else
    match findInWindow mem c data 16 with
    | some r => some r
    | none => findCharMain mem c 16 (by decide) (data + size) ((data + 16) / 16 * 16)

/-- The `Cpu::Avx2|Cpu::Bmi1` tier of `stringFindCharacterImplementation`:
sizes below 32 delegate to the SSE2 tier, otherwise one unconditional
unaligned 32-byte lookup at `data`, then the aligned loops starting at
`(data + 32) & ~0x1f`, i.e. `(data + 32) / 32 * 32`. -/
def stringFindCharacterAvx2 (mem : Nat → Nat) (data size c : Nat) : Option Nat :=
  if size < 32 then stringFindCharacterSse2 mem data size c
  else
    match findInWindow mem c data 32 with
    | some r => some r
    | none => findCharMain mem c 32 (by decide) (data + size) ((data + 32) / 32 * 32)

/-- Embedding of `stringFindLastCharacter`'s loop shape, also reused for the
backward any-of searches: test the byte at offset `o`, then `o - 1`, down to
offset `0`. -/
def findLastIf (p : Nat → Bool) (s : List Nat) (o : Nat) : Option Nat :=
  if p (s.getD o 0) then some o
  else match o with
    | 0 => none
    | o' + 1 => findLastIf p s o'

/-- `stringFindLastCharacter`: `if(data) for(const char* i = data + size - 1;
i >= data; --i) if(*i == character) return i;` scanning offsets `size - 1`
down to `0`; null (pointer or result) when `size == 0`. -/
def stringFindLastCharacter (s : List Nat) (c : Nat) : Option Nat :=
  match s.length with
  | 0 => none
  | n + 1 => findLastIf (fun b => b == c) s n

/-- Forward scan shape shared by `stringFindAny` and `stringFindNotAny`:
`for(const char* i = data, *end = data + size; i != end; ++i)` testing each
byte with the predicate. -/
def findIf (p : Nat → Bool) : List Nat → Nat → Option Nat
  | [], _ => none
  | b :: rest, o => if p b then some o else findIf p rest (o + 1)

/-- `stringFindAny`: first offset whose byte satisfies
`std::memchr(characters, *i, characterCount)`, i.e. membership in the
character set. -/
def stringFindAny (s chars : List Nat) : Option Nat :=
  findIf (fun b => chars.contains b) s 0

/-- `stringFindNotAny`: first offset whose byte is not in the character
set. -/
def stringFindNotAny (s chars : List Nat) : Option Nat :=
  findIf (fun b => !(chars.contains b)) s 0

/-- `stringFindLastAny`: `for(const char* i = data + size; i != data; --i)`
testing `*(i - 1)` for set membership, i.e. offsets `size - 1` down to
`0`. -/
def stringFindLastAny (s chars : List Nat) : Option Nat :=
  match s.length with
  | 0 => none
  | n + 1 => findLastIf (fun b => chars.contains b) s n

/-- `stringFindLastNotAny`: backward scan with the negated membership
test. -/
def stringFindLastNotAny (s chars : List Nat) : Option Nat :=
  match s.length with
  | 0 => none
  | n + 1 => findLastIf (fun b => !(chars.contains b)) s n

/-- The `std::memcmp(data + o, substring, substringSize) == 0` test of the
substring searches: the `substringSize` bytes at offset `o` equal the
needle. -/
def memcmpEq (s sub : List Nat) (o : Nat) : Bool :=
  List.take sub.length (List.drop o s) == sub

/-- The scan loop of `stringFindString`:
`for(const char* const max = data + size - substringSize; data <= max;
++data)`, trying offsets `o`, `o + 1`, …, `maxO` in increasing order. -/
def findStringLoop (s sub : List Nat) (o maxO : Nat) : Option Nat :=
  if h : o ≤ maxO then
    if memcmpEq s sub o then some o
    else findStringLoop s sub (o + 1) maxO
  else none
termination_by maxO + 1 - o
decreasing_by omega

/-- `stringFindString`: forward naive substring search.  A needle larger than
the haystack fails immediately; an empty haystack (hence also an empty
needle) returns `data` itself, offset `0`; otherwise every start offset up to
`size - substringSize` is tried in increasing order. -/
def stringFindString (s sub : List Nat) : Option Nat :=
  if sub.length ≤ s.length then
    if s.length = 0 then some 0
    else findStringLoop s sub 0 (s.length - sub.length)
  else none

/-- The scan loop of `stringFindLastString`:
`for(const char* i = data + size - substringSize; i >= data; --i)`, trying
offsets `o`, `o - 1`, …, `0` in decreasing order. -/
def findLastStringLoop (s sub : List Nat) (o : Nat) : Option Nat :=
  if memcmpEq s sub o then some o
  else match o with
    | 0 => none
    | o' + 1 => findLastStringLoop s sub o'

/-- `stringFindLastString`: backward naive substring search, starting from
offset `size - substringSize` and decreasing. -/
def stringFindLastString (s sub : List Nat) : Option Nat :=
  if sub.length ≤ s.length then
    if s.length = 0 then some 0
    else findLastStringLoop s sub (s.length - sub.length)
  else none

/-- Modelled from the spec: the `Cpu::Features` / `Simd::Features` bitmask
type and its `contains` operation are declared in Corrade/Cpu.h, which is not
among the sources here (only its test, SimdTest.cpp, is).  Per the spec a
FeatureSet is a fixed-width bitmask and `contains(a, b)` is true iff every
capability in `b` is also in `a`. -/
def featuresContains (a b : Nat) : Bool := a &&& b == b

/-- Modelled from the spec: comparison operator `<=` on FeatureSets, defined
purely in terms of `contains` (subset). -/
def featuresLe (a b : Nat) : Bool := featuresContains b a

/-- Modelled from the spec: comparison operator `>=` on FeatureSets, defined
purely in terms of `contains` (superset). -/
def featuresGe (a b : Nat) : Bool := featuresContains a b

/-- View of a concrete byte list placed at base address `base`, for stating
concrete-buffer facts about the address-based kernels. -/
def memOf (s : List Nat) (base : Nat) : Nat → Nat :=
  fun a => s.getD (a - base) 0

/-- The boundary-straddling test buffer: sixteen `'a'` bytes followed by one
`'X'`, length 17. -/
def buf17 : List Nat :=
  [97, 97, 97, 97, 97, 97, 97, 97, 97, 97, 97, 97, 97, 97, 97, 97, 88]

/-! Characterizations of `memchr`: the scalar reference semantics. -/

theorem memchr_none_iff (mem : Nat → Nat) (c : Nat) :
    ∀ n a, memchr mem a c n = none ↔ ∀ x, a ≤ x → x < a + n → mem x ≠ c := by
  intro n
  induction n with
  | zero =>
    intro a
    constructor
    · intro _ x hx1 hx2
      omega
    · intro _
      rfl
  | succ n ih =>
    intro a
    rw [memchr]
    by_cases hc : mem a = c
    · rw [if_pos hc]
      constructor
      · intro h
        exact Option.noConfusion h
      · intro h
        exact absurd hc (h a le_rfl (by omega))
    · rw [if_neg hc, ih (a + 1)]
      constructor
      · intro h x hx1 hx2
        rcases Nat.eq_or_lt_of_le hx1 with h1 | h1
        · rw [← h1]
          exact hc
        · exact h x h1 (by omega)
      · intro h x hx1 hx2
        exact h x (by omega) (by omega)

theorem memchr_some_iff (mem : Nat → Nat) (c : Nat) :
    ∀ n a r, memchr mem a c n = some r ↔
      (a ≤ r ∧ r < a + n ∧ mem r = c ∧ ∀ x, a ≤ x → x < r → mem x ≠ c) := by
  intro n
  induction n with
  | zero =>
    intro a r
    constructor
    · intro h
      exact Option.noConfusion h
    · intro ⟨h1, h2, _, _⟩
      omega
  | succ n ih =>
    intro a r
    rw [memchr]
    by_cases hc : mem a = c
    · rw [if_pos hc]
      constructor
      · intro h
        injection h with h
        subst h
        exact ⟨le_rfl, by omega, hc, fun x hx1 hx2 => by omega⟩
      · intro ⟨h1, h2, h3, h4⟩
        have hra : r = a := by
          by_contra hne
          exact h4 a le_rfl (Nat.lt_of_le_of_ne h1 fun h => hne h.symm) hc
        rw [hra]
    · rw [if_neg hc, ih (a + 1) r]
      constructor
      · intro ⟨h1, h2, h3, h4⟩
        refine ⟨by omega, by omega, h3, fun x hx1 hx2 => ?_⟩
        rcases Nat.eq_or_lt_of_le hx1 with h5 | h5
        · rw [← h5]
          exact hc
        · exact h4 x h5 hx2
      · intro ⟨h1, h2, h3, h4⟩
        have hra : a ≠ r := fun h => hc (h ▸ h3)
        exact ⟨by omega, by omega, h3, fun x hx1 hx2 => h4 x (by omega) hx2⟩

theorem memchr_skip (mem : Nat → Nat) (c a j n : Nat)
    (hj1 : a ≤ j) (hj2 : j ≤ a + n)
    (hno : ∀ x, a ≤ x → x < j → mem x ≠ c) :
    memchr mem a c n = memchr mem j c (a + n - j) := by
  cases hr : memchr mem j c (a + n - j) with
  | none =>
    rw [memchr_none_iff] at hr ⊢
    intro x hx1 hx2
    by_cases hxj : x < j
    · exact hno x hx1 hxj
    · exact hr x (by omega) (by omega)
  | some r =>
    rw [memchr_some_iff] at hr ⊢
    obtain ⟨h1, h2, h3, h4⟩ := hr
    refine ⟨by omega, by omega, h3, fun x hx1 hx2 => ?_⟩
    by_cases hxj : x < j
    · exact hno x hx1 hxj
    · exact h4 x (by omega) hx2

theorem memchr_some_extend (mem : Nat → Nat) (c a j n bigN r : Nat)
    (hja : a ≤ j) (hjn : j + n ≤ a + bigN)
    (hno : ∀ x, a ≤ x → x < j → mem x ≠ c)
    (hr : memchr mem j c n = some r) :
    memchr mem a c bigN = some r := by
  rw [memchr_some_iff] at hr ⊢
  obtain ⟨g1, g2, g3, g4⟩ := hr
  refine ⟨by omega, by omega, g3, fun x hx1 hx2 => ?_⟩
  by_cases hxj : x < j
  · exact hno x hx1 hxj
  · exact g4 x (by omega) hx2

/-! Bridges from the loop-shaped kernel pieces to `memchr`. -/

theorem findInWindow_eq_memchr (mem : Nat → Nat) (c : Nat) :
    ∀ w a, findInWindow mem c a w = memchr mem a c w := by
  intro w
  induction w with
  | zero =>
    intro a
    rfl
  | succ w ih =>
    intro a
    show (if mem a = c then some a else findInWindow mem c (a + 1) w) = _
    rw [memchr, ih]

theorem scalarByteScan_eq_memchr (mem : Nat → Nat) (c i e : Nat) :
    scalarByteScan mem c i e = memchr mem i c (e - i) := by
  rw [scalarByteScan]
  split
  · next h =>
    obtain ⟨k, hk⟩ : ∃ k, e - i = k + 1 := ⟨e - i - 1, by omega⟩
    by_cases hc : mem i = c
    · rw [hk, memchr, if_pos hc, if_pos hc]
    · rw [hk, memchr, if_neg hc, if_neg hc,
        scalarByteScan_eq_memchr mem c (i + 1) e]
      congr 1
      omega
  · next h =>
    have he : e - i = 0 := by omega
    rw [he]
    rfl
termination_by e - i
decreasing_by omega

theorem findCharTail_eq (mem : Nat → Nat) (c w : Nat) (hw : 0 < w) (e i : Nat)
    (h1 : i ≤ e) (h2 : w ≤ e)
    (h3 : ∀ x, e - w ≤ x → x < i → mem x ≠ c) :
    findCharTail mem c w hw e i = memchr mem i c (e - i) := by
  rw [findCharTail]
  split
  · next h =>
    rw [findInWindow_eq_memchr]
    cases hr : memchr mem i c w with
    | some r =>
      exact (memchr_some_extend mem c i i w (e - i) r le_rfl (by omega)
        (fun x hx1 hx2 => by omega) hr).symm
    | none =>
      rw [memchr_none_iff] at hr
      show findCharTail mem c w hw e (i + w) = memchr mem i c (e - i)
      rw [findCharTail_eq mem c w hw e (i + w) (by omega) h2
        (fun x hx1 hx2 => by
          by_cases hxi : x < i
          · exact h3 x hx1 hxi
          · exact hr x (by omega) (by omega))]
      have hs := memchr_skip mem c i (i + w) (e - i) (by omega) (by omega)
        (fun x hx1 hx2 => hr x hx1 (by omega))
      rw [hs]
      congr 1
      omega
  · next hgt =>
    split
    · next hlt =>
      rw [findInWindow_eq_memchr]
      have hs := memchr_skip mem c (e - w) i w (by omega) (by omega) h3
      rw [hs]
      congr 1
      omega
    · next hlt =>
      have he : e - i = 0 := by omega
      rw [he]
      rfl
termination_by e - i
decreasing_by omega

theorem findCharMain_eq (mem : Nat → Nat) (c w : Nat) (hw : 0 < w) (e i : Nat)
    (h1 : i ≤ e) (h2 : w ≤ e)
    (h3 : ∀ x, e - w ≤ x → x < i → mem x ≠ c) :
    findCharMain mem c w hw e i = memchr mem i c (e - i) := by
  rw [findCharMain]
  split
  · next h =>
    simp only [findInWindow_eq_memchr]
    split
    · next r hA =>
      exact (memchr_some_extend mem c i i w (e - i) r le_rfl (by omega)
        (fun x hx1 hx2 => by omega) hA).symm
    · next r hA hB =>
      rw [memchr_none_iff] at hA
      exact (memchr_some_extend mem c i (i + w) w (e - i) r (by omega) (by omega)
        (fun x hx1 hx2 => hA x hx1 (by omega)) hB).symm
    · next r hA hB hC =>
      rw [memchr_none_iff] at hA hB
      refine (memchr_some_extend mem c i (i + 2 * w) w (e - i) r (by omega) (by omega)
        (fun x hx1 hx2 => ?_) hC).symm
      by_cases hxw : x < i + w
      · exact hA x hx1 (by omega)
      · exact hB x (by omega) (by omega)
    · next r hA hB hC hD =>
      rw [memchr_none_iff] at hA hB hC
      refine (memchr_some_extend mem c i (i + 3 * w) w (e - i) r (by omega) (by omega)
        (fun x hx1 hx2 => ?_) hD).symm
      by_cases hx1w : x < i + w
      · exact hA x hx1 (by omega)
      · by_cases hx2w : x < i + 2 * w
        · exact hB x (by omega) (by omega)
        · exact hC x (by omega) (by omega)
    · next hA hB hC hD =>
      rw [memchr_none_iff] at hA hB hC hD
      have hno4 : ∀ x, i ≤ x → x < i + 4 * w → mem x ≠ c := by
        intro x hx1 hx2
        by_cases hx1w : x < i + w
        · exact hA x hx1 (by omega)
        · by_cases hx2w : x < i + 2 * w
          · exact hB x (by omega) (by omega)
          · by_cases hx3w : x < i + 3 * w
            · exact hC x (by omega) (by omega)
            · exact hD x (by omega) (by omega)
      rw [findCharMain_eq mem c w hw e (i + 4 * w) (by omega) h2
        (fun x hx1 hx2 => by
          by_cases hxi : x < i
          · exact h3 x hx1 hxi
          · exact hno4 x (by omega) (by omega))]
      have hs := memchr_skip mem c i (i + 4 * w) (e - i) (by omega) (by omega) hno4
      rw [hs]
      congr 1
      omega
  · exact findCharTail_eq mem c w hw e i h1 h2 h3
termination_by e - i
decreasing_by omega

theorem sse2_eq_memchr (mem : Nat → Nat) (data size c : Nat) :
    stringFindCharacterSse2 mem data size c = memchr mem data c size := by
  rw [stringFindCharacterSse2]
  split
  · next h =>
    rw [scalarByteScan_eq_memchr]
    congr 1
    omega
  · next h =>
    rw [findInWindow_eq_memchr]
    have hq := Nat.div_add_mod (data + 16) 16
    have hmod : (data + 16) % 16 < 16 := Nat.mod_lt _ (by decide)
    have hmul : 16 * ((data + 16) / 16) = (data + 16) / 16 * 16 := Nat.mul_comm _ _
    cases hr : memchr mem data c 16 with
    | some r =>
      exact (memchr_some_extend mem c data data 16 size r le_rfl (by omega)
        (fun x hx1 hx2 => by omega) hr).symm
    | none =>
      rw [memchr_none_iff] at hr
      show findCharMain mem c 16 (by decide) (data + size) ((data + 16) / 16 * 16) =
        memchr mem data c size
      rw [findCharMain_eq mem c 16 (by decide) (data + size) ((data + 16) / 16 * 16)
        (by omega) (by omega)
        (fun x hx1 hx2 => hr x (by omega) (by omega))]
      have hs := memchr_skip mem c data ((data + 16) / 16 * 16) size (by omega) (by omega)
        (fun x hx1 hx2 => hr x hx1 (by omega))
      rw [← hs]

theorem avx2_eq_memchr (mem : Nat → Nat) (data size c : Nat) :
    stringFindCharacterAvx2 mem data size c = memchr mem data c size := by
  rw [stringFindCharacterAvx2]
  split
  · next h =>
    exact sse2_eq_memchr mem data size c
  · next h =>
    rw [findInWindow_eq_memchr]
    have hq := Nat.div_add_mod (data + 32) 32
    have hmod : (data + 32) % 32 < 32 := Nat.mod_lt _ (by decide)
    have hmul : 32 * ((data + 32) / 32) = (data + 32) / 32 * 32 := Nat.mul_comm _ _
    cases hr : memchr mem data c 32 with
    | some r =>
      exact (memchr_some_extend mem c data data 32 size r le_rfl (by omega)
        (fun x hx1 hx2 => by omega) hr).symm
    | none =>
      rw [memchr_none_iff] at hr
      show findCharMain mem c 32 (by decide) (data + size) ((data + 32) / 32 * 32) =
        memchr mem data c size
      rw [findCharMain_eq mem c 32 (by decide) (data + size) ((data + 32) / 32 * 32)
        (by omega) (by omega)
        (fun x hx1 hx2 => hr x (by omega) (by omega))]
      have hs := memchr_skip mem c data ((data + 32) / 32 * 32) size (by omega) (by omega)
        (fun x hx1 hx2 => hr x hx1 (by omega))
      rw [← hs]

/-! Facts about the forward and backward per-byte list scans. -/

theorem findIf_bound (p : Nat → Bool) :
    ∀ (s : List Nat) (o r : Nat), findIf p s o = some r → o ≤ r ∧ r < o + s.length := by
  intro s
  induction s with
  | nil =>
    intro o r h
    exact Option.noConfusion h
  | cons b rest ih =>
    intro o r h
    simp only [findIf] at h
    by_cases hp : p b
    · rw [if_pos hp] at h
      injection h with h
      subst h
      simp only [List.length_cons]
      omega
    · rw [if_neg hp] at h
      have := ih (o + 1) r h
      simp only [List.length_cons]
      omega

theorem findLastIf_bound (p : Nat → Bool) (s : List Nat) :
    ∀ o r, findLastIf p s o = some r → r ≤ o := by
  intro o
  induction o with
  | zero =>
    intro r h
    rw [findLastIf.eq_def] at h
    by_cases hp : p (s.getD 0 0)
    · rw [if_pos hp] at h
      injection h with h
      omega
    · rw [if_neg hp] at h
      exact Option.noConfusion h
  | succ o ih =>
    intro r h
    rw [findLastIf.eq_def] at h
    by_cases hp : p (s.getD (o + 1) 0)
    · rw [if_pos hp] at h
      injection h with h
      omega
    · rw [if_neg hp] at h
      have := ih r h
      omega

theorem findLastIf_top (p : Nat → Bool) (s : List Nat) (o : Nat)
    (hp : p (s.getD o 0) = true) : findLastIf p s o = some o := by
  rw [findLastIf.eq_def, if_pos hp]

/-! Facts about the substring-search loops. -/

/-- The predicate the substring searches decide at each offset: the
`substringSize` bytes at offset `o` equal the needle. -/
def substringMatchAt (s sub : List Nat) (o : Nat) : Prop :=
  List.take sub.length (List.drop o s) = sub

theorem memcmpEq_iff (s sub : List Nat) (o : Nat) :
    memcmpEq s sub o = true ↔ substringMatchAt s sub o := by
  simp [memcmpEq, substringMatchAt]

theorem substringMatchAt_le (s sub : List Nat) (o : Nat)
    (hs : 0 < sub.length) (h : substringMatchAt s sub o) :
    o + sub.length ≤ s.length := by
  have hlen := congrArg List.length h
  rw [List.length_take, List.length_drop] at hlen
  have hmin := Nat.min_le_right sub.length (s.length - o)
  omega

theorem findStringLoop_some_iff (s sub : List Nat) (o maxO r : Nat) :
    findStringLoop s sub o maxO = some r ↔
      (o ≤ r ∧ r ≤ maxO ∧ substringMatchAt s sub r ∧
        ∀ k, o ≤ k → k < r → ¬ substringMatchAt s sub k) := by
  rw [findStringLoop]
  split
  · next h =>
    by_cases hm : memcmpEq s sub o
    · rw [if_pos hm]
      rw [memcmpEq_iff] at hm
      constructor
      · intro he
        injection he with he
        subst he
        exact ⟨le_rfl, h, hm, fun k hk1 hk2 => by omega⟩
      · intro ⟨h1, h2, h3, h4⟩
        have hro : r = o := by
          by_contra hne
          exact h4 o le_rfl (by omega) hm
        rw [hro]
    · rw [if_neg hm]
      rw [memcmpEq_iff] at hm
      rw [findStringLoop_some_iff s sub (o + 1) maxO r]
      constructor
      · intro ⟨h1, h2, h3, h4⟩
        refine ⟨by omega, h2, h3, fun k hk1 hk2 => ?_⟩
        rcases Nat.eq_or_lt_of_le hk1 with h5 | h5
        · rw [← h5]
          exact hm
        · exact h4 k h5 hk2
      · intro ⟨h1, h2, h3, h4⟩
        have hor : o ≠ r := fun he => hm (he ▸ h3)
        exact ⟨by omega, h2, h3, fun k hk1 hk2 => h4 k (by omega) hk2⟩
  · next h =>
    constructor
    · intro he
      exact Option.noConfusion he
    · intro ⟨h1, h2, _, _⟩
      omega
termination_by maxO + 1 - o
decreasing_by omega

theorem findStringLoop_none_iff (s sub : List Nat) (o maxO : Nat) :
    findStringLoop s sub o maxO = none ↔
      ∀ k, o ≤ k → k ≤ maxO → ¬ substringMatchAt s sub k := by
  rw [findStringLoop]
  split
  · next h =>
    by_cases hm : memcmpEq s sub o
    · rw [if_pos hm]
      rw [memcmpEq_iff] at hm
      constructor
      · intro he
        exact Option.noConfusion he
      · intro hk
        exact absurd hm (hk o le_rfl h)
    · rw [if_neg hm]
      rw [memcmpEq_iff] at hm
      rw [findStringLoop_none_iff s sub (o + 1) maxO]
      constructor
      · intro hk k hk1 hk2
        rcases Nat.eq_or_lt_of_le hk1 with h5 | h5
        · rw [← h5]
          exact hm
        · exact hk k h5 hk2
      · intro hk k hk1 hk2
        exact hk k (by omega) hk2
  · next h =>
    constructor
    · intro _ k hk1 hk2
      omega
    · intro _
      rfl
termination_by maxO + 1 - o
decreasing_by omega

theorem findLastStringLoop_some_iff (s sub : List Nat) :
    ∀ o r, findLastStringLoop s sub o = some r ↔
      (r ≤ o ∧ substringMatchAt s sub r ∧
        ∀ k, r < k → k ≤ o → ¬ substringMatchAt s sub k) := by
  intro o
  induction o with
  | zero =>
    intro r
    rw [findLastStringLoop]
    by_cases hm : memcmpEq s sub 0
    · rw [if_pos hm]
      rw [memcmpEq_iff] at hm
      constructor
      · intro he
        injection he with he
        subst he
        exact ⟨le_rfl, hm, fun k hk1 hk2 => by omega⟩
      · intro ⟨h1, h2, h3⟩
        have : r = 0 := by omega
        rw [this]
    · rw [if_neg hm]
      rw [memcmpEq_iff] at hm
      constructor
      · intro he
        exact Option.noConfusion he
      · intro ⟨h1, h2, h3⟩
        have : r = 0 := by omega
        rw [this] at h2
        exact absurd h2 hm
  | succ o ih =>
    intro r
    rw [findLastStringLoop]
    by_cases hm : memcmpEq s sub (o + 1)
    · rw [if_pos hm]
      rw [memcmpEq_iff] at hm
      constructor
      · intro he
        injection he with he
        subst he
        exact ⟨le_rfl, hm, fun k hk1 hk2 => by omega⟩
      · intro ⟨h1, h2, h3⟩
        have hro : r = o + 1 := by
          by_contra hne
          exact h3 (o + 1) (by omega) le_rfl hm
        rw [hro]
    · rw [if_neg hm]
      rw [memcmpEq_iff] at hm
      show findLastStringLoop s sub o = some r ↔ _
      rw [ih r]
      constructor
      · intro ⟨h1, h2, h3⟩
        refine ⟨by omega, h2, fun k hk1 hk2 => ?_⟩
        rcases Nat.eq_or_lt_of_le hk2 with h5 | h5
        · rw [h5]
          exact hm
        · exact h3 k hk1 (by omega)
      · intro ⟨h1, h2, h3⟩
        have hne : r ≠ o + 1 := fun he => hm (he ▸ h2)
        exact ⟨by omega, h2, fun k hk1 hk2 => h3 k hk1 (by omega)⟩

theorem findLastStringLoop_none_iff (s sub : List Nat) :
    ∀ o, findLastStringLoop s sub o = none ↔
      ∀ k, k ≤ o → ¬ substringMatchAt s sub k := by
  intro o
  induction o with
  | zero =>
    rw [findLastStringLoop]
    by_cases hm : memcmpEq s sub 0
    · rw [if_pos hm]
      rw [memcmpEq_iff] at hm
      constructor
      · intro he
        exact Option.noConfusion he
      · intro hk
        exact absurd hm (hk 0 le_rfl)
    · rw [if_neg hm]
      rw [memcmpEq_iff] at hm
      constructor
      · intro _ k hk
        have : k = 0 := by omega
        rw [this]
        exact hm
      · intro _
        rfl
  | succ o ih =>
    rw [findLastStringLoop]
    by_cases hm : memcmpEq s sub (o + 1)
    · rw [if_pos hm]
      rw [memcmpEq_iff] at hm
      constructor
      · intro he
        exact Option.noConfusion he
      · intro hk
        exact absurd hm (hk (o + 1) le_rfl)
    · rw [if_neg hm]
      rw [memcmpEq_iff] at hm
      show findLastStringLoop s sub o = none ↔ _
      rw [ih]
      constructor
      · intro hk k hk1
        rcases Nat.eq_or_lt_of_le hk1 with h5 | h5
        · rw [h5]
          exact hm
        · exact hk k (by omega)
      · intro hk k hk1
        exact hk k (by omega)

/-! FeatureSet subset ordering, and concrete-buffer bridging helpers. -/

theorem featuresContains_iff (a b : Nat) :
    featuresContains a b = true ↔ ∀ i, b.testBit i = true → a.testBit i = true := by
  rw [featuresContains, beq_iff_eq]
  constructor
  · intro h i hi
    have h2 := congrArg (fun n => n.testBit i) h
    simp only [Nat.testBit_land] at h2
    rw [← h2] at hi
    exact ((Bool.and_eq_true _ _).mp hi).1
  · intro h
    apply Nat.eq_of_testBit_eq
    intro i
    rw [Nat.testBit_land]
    cases hb : b.testBit i
    · simp
    · simp [h i hb]

theorem memchr_memOf_some (s : List Nat) (base c r : Nat)
    (h1 : r < s.length) (h2 : s.getD r 0 = c)
    (h3 : ∀ k, k < r → s.getD k 0 ≠ c) :
    memchr (memOf s base) base c s.length = some (base + r) := by
  rw [memchr_some_iff]
  refine ⟨by omega, by omega, ?_, ?_⟩
  · show s.getD (base + r - base) 0 = c
    have he : base + r - base = r := by omega
    rw [he, h2]
  · intro x hx1 hx2
    show s.getD (x - base) 0 ≠ c
    exact h3 (x - base) (by omega)

theorem memchr_memOf_none (s : List Nat) (base c : Nat)
    (h : ∀ k, k < s.length → s.getD k 0 ≠ c) :
    memchr (memOf s base) base c s.length = none := by
  rw [memchr_none_iff]
  intro x hx1 hx2
  show s.getD (x - base) 0 ≠ c
  exact h (x - base) (by omega)

theorem findIf_of_false (p : Nat → Bool) (hp : ∀ b, p b = false) :
    ∀ (s : List Nat) (o : Nat), findIf p s o = none := by
  intro s
  induction s with
  | nil =>
    intro o
    rfl
  | cons b rest ih =>
    intro o
    simp [findIf, hp b, ih]

theorem findLastIf_of_false (p : Nat → Bool) (hp : ∀ b, p b = false) (s : List Nat) :
    ∀ o, findLastIf p s o = none := by
  intro o
  induction o with
  | zero =>
    rw [findLastIf.eq_def, hp]
    rfl
  | succ o ih =>
    rw [findLastIf.eq_def, hp]
    simpa using ih

/-! The claims. -/

/-- Claim C1: for every byte buffer (data, size) and every target byte, the
128-bit (SSE2+BMI1) stringFindCharacter implementation returns exactly the
same result as the scalar reference implementation — the leftmost occurrence
of the byte, or the null not-found sentinel when the byte is absent — and for
size < 16 it is the per-byte scalar scan branch (no vector window is
consulted on that path). -/
theorem c1_sse2_equals_scalar (mem : Nat → Nat) (data size c : Nat) :
    stringFindCharacterSse2 mem data size c = stringFindCharacterScalar mem data size c
    ∧ (size < 16 →
        stringFindCharacterSse2 mem data size c = scalarByteScan mem c data (data + size))
    ∧ (∀ r, stringFindCharacterSse2 mem data size c = some r ↔
        (data ≤ r ∧ r < data + size ∧ mem r = c ∧ ∀ x, data ≤ x → x < r → mem x ≠ c))
    ∧ (stringFindCharacterSse2 mem data size c = none ↔
        ∀ x, data ≤ x → x < data + size → mem x ≠ c) := by
  refine ⟨sse2_eq_memchr mem data size c, ?_, ?_, ?_⟩
  · intro h
    rw [stringFindCharacterSse2, if_pos h]
  · intro r
    rw [sse2_eq_memchr]
    exact memchr_some_iff mem c size data r
  · rw [sse2_eq_memchr]
    exact memchr_none_iff mem c size data

/-- Witness for C1 at a concrete short buffer. -/
theorem c1_witness :
    3 < 16 ∧ stringFindCharacterSse2 (fun _ => 0) 5 3 7 =
      scalarByteScan (fun _ => 0) 7 5 (5 + 3) :=
  ⟨by decide, (c1_sse2_equals_scalar (fun _ => 0) 5 3 7).2.1 (by decide)⟩

/-- Claim C2: for size < 32 the 256-bit (AVX2+BMI1) stringFindCharacter
implementation returns exactly the result of the 128-bit implementation on
the same input (it delegates instead of duplicating the short-input path),
and for every size it agrees with the scalar reference. -/
theorem c2_avx2_delegates_and_equals_scalar (mem : Nat → Nat) (data size c : Nat) :
    (size < 32 →
      stringFindCharacterAvx2 mem data size c = stringFindCharacterSse2 mem data size c)
    ∧ stringFindCharacterAvx2 mem data size c = stringFindCharacterScalar mem data size c := by
  constructor
  · intro h
    rw [stringFindCharacterAvx2, if_pos h]
  · exact avx2_eq_memchr mem data size c

/-- Witness for C2 at a concrete sub-32 size. -/
theorem c2_witness :
    31 < 32 ∧ stringFindCharacterAvx2 (fun _ => 0) 3 31 9 =
      stringFindCharacterSse2 (fun _ => 0) 3 31 9 :=
  ⟨by decide, (c2_avx2_delegates_and_equals_scalar (fun _ => 0) 3 31 9).1 (by decide)⟩

/-- Counterexample for C3 as stated: on the one-byte haystack `[97]`,
stringFindLastString with the empty needle returns offset 1 (the pointer
`data + size`), not offset 0. -/
theorem c3_counterexample :
    stringFindLastString [97] [] = some 1 ∧ stringFindLastString [97] [] ≠ some 0 := by
  decide

/-- Claim C3 (amended): an empty needle matches at offset 0 for the forward
search, while the backward search returns offset size (the rightmost starting
offset at which an empty needle matches; this is offset 0 only when
size == 0); a needle longer than the haystack yields not-found for both
directions. -/
theorem c3_empty_and_long_needle (s : List Nat) :
    stringFindString s [] = some 0
    ∧ stringFindLastString s [] = some s.length
    ∧ ∀ sub : List Nat, s.length < sub.length →
        stringFindString s sub = none ∧ stringFindLastString s sub = none := by
  refine ⟨?_, ?_, ?_⟩
  · rw [stringFindString, if_pos (by simp)]
    by_cases h : s.length = 0
    · rw [if_pos h]
    · rw [if_neg h, findStringLoop, dif_pos (by omega), if_pos (by simp [memcmpEq])]
  · rw [stringFindLastString, if_pos (by simp)]
    by_cases h : s.length = 0
    · rw [if_pos h, h]
    · rw [if_neg h, findLastStringLoop.eq_def, if_pos (by simp [memcmpEq])]
      simp
  · intro sub hlen
    constructor
    · rw [stringFindString, if_neg (by omega)]
    · rw [stringFindLastString, if_neg (by omega)]

/-- Witness for C3 (amended) at a concrete needle longer than the
haystack. -/
theorem c3_witness :
    List.length [4, 5] < List.length [1, 2, 3]
    ∧ stringFindString [4, 5] [1, 2, 3] = none
    ∧ stringFindLastString [4, 5] [1, 2, 3] = none :=
  ⟨by decide, (c3_empty_and_long_needle [4, 5]).2.2 [1, 2, 3] (by decide)⟩

/-- Claim C4: for a needle with 0 < substringSize <= size, stringFindString
returns the smallest offset at which the substringSize bytes of the haystack
equal the needle (not-found when no offset matches), and stringFindLastString
the largest such offset. -/
theorem c4_substring_search_minimal_maximal (s sub : List Nat)
    (h1 : 0 < sub.length) (h2 : sub.length ≤ s.length) :
    (∀ r, stringFindString s sub = some r ↔
      (substringMatchAt s sub r ∧ ∀ k, k < r → ¬ substringMatchAt s sub k))
    ∧ (stringFindString s sub = none ↔ ∀ k, ¬ substringMatchAt s sub k)
    ∧ (∀ r, stringFindLastString s sub = some r ↔
      (substringMatchAt s sub r ∧ ∀ k, substringMatchAt s sub k → k ≤ r))
    ∧ (stringFindLastString s sub = none ↔ ∀ k, ¬ substringMatchAt s sub k) := by
  have hs0 : ¬ s.length = 0 := by omega
  have hbound : ∀ k, substringMatchAt s sub k → k ≤ s.length - sub.length := by
    intro k hk
    have := substringMatchAt_le s sub k h1 hk
    omega
  refine ⟨?_, ?_, ?_, ?_⟩
  · intro r
    rw [stringFindString, if_pos h2, if_neg hs0, findStringLoop_some_iff]
    constructor
    · intro ⟨g1, g2, g3, g4⟩
      exact ⟨g3, fun k hk => g4 k (by omega) hk⟩
    · intro ⟨g1, g2⟩
      exact ⟨by omega, hbound r g1, g1, fun k _ hk => g2 k hk⟩
  · rw [stringFindString, if_pos h2, if_neg hs0, findStringLoop_none_iff]
    constructor
    · intro h k
      by_cases hk : k ≤ s.length - sub.length
      · exact h k (by omega) hk
      · intro hm
        exact hk (hbound k hm)
    · intro h k _ _
      exact h k
  · intro r
    rw [stringFindLastString, if_pos h2, if_neg hs0, findLastStringLoop_some_iff]
    constructor
    · intro ⟨g1, g2, g3⟩
      refine ⟨g2, fun k hk => ?_⟩
      by_contra hgt
      exact g3 k (by omega) (hbound k hk) hk
    · intro ⟨g1, g2⟩
      refine ⟨hbound r g1, g1, fun k hk1 hk2 hm => ?_⟩
      have := g2 k hm
      omega
  · rw [stringFindLastString, if_pos h2, if_neg hs0, findLastStringLoop_none_iff]
    constructor
    · intro h k
      by_cases hk : k ≤ s.length - sub.length
      · exact h k hk
      · intro hm
        exact hk (hbound k hm)
    · intro h k _
      exact h k

/-- Witness for C4 on the haystack `[9, 8]` with needle `[8]`. -/
theorem c4_witness :
    (∀ r, stringFindString [9, 8] [8] = some r ↔
      (substringMatchAt [9, 8] [8] r ∧ ∀ k, k < r → ¬ substringMatchAt [9, 8] [8] k))
    ∧ (stringFindString [9, 8] [8] = none ↔ ∀ k, ¬ substringMatchAt [9, 8] [8] k)
    ∧ (∀ r, stringFindLastString [9, 8] [8] = some r ↔
      (substringMatchAt [9, 8] [8] r ∧ ∀ k, substringMatchAt [9, 8] [8] k → k ≤ r))
    ∧ (stringFindLastString [9, 8] [8] = none ↔ ∀ k, ¬ substringMatchAt [9, 8] [8] k) :=
  c4_substring_search_minimal_maximal [9, 8] [8] (by decide) (by decide)

/-- Claim C5: every search operation on a zero-length buffer returns the
not-found sentinel.  For the address-based character-search tiers the result
is `none` for every memory contents `mem` and every base address (including
0, the null pointer), which also shows the result depends on no byte of the
buffer; the list-based operations receive the empty list, so there is no byte
they could read, for any character set including the empty one. -/
theorem c5_zero_length_not_found (mem : Nat → Nat) (data c : Nat) (chars : List Nat) :
    stringFindCharacterSse2 mem data 0 c = none
    ∧ stringFindCharacterAvx2 mem data 0 c = none
    ∧ stringFindCharacterScalar mem data 0 c = none
    ∧ stringFindLastCharacter [] c = none
    ∧ stringFindAny [] chars = none
    ∧ stringFindLastAny [] chars = none
    ∧ stringFindNotAny [] chars = none
    ∧ stringFindLastNotAny [] chars = none := by
  refine ⟨?_, ?_, rfl, rfl, rfl, rfl, rfl, rfl⟩
  · rw [sse2_eq_memchr]
    rfl
  · rw [avx2_eq_memchr]
    rfl

/-- Claim C6: on FeatureSets (spec-modelled bitmasks, since Corrade/Cpu.h is
not among the sources), `<=` holds iff every capability bit of the left
operand is set in the right one, symmetrically for `>=`, and the order is not
total: the disjoint non-empty masks 1 and 2 compare neither `<=` nor
`>=`. -/
theorem c6_features_subset_ordering :
    (∀ a b : Nat, featuresLe a b = true ↔ ∀ i, a.testBit i = true → b.testBit i = true)
    ∧ (∀ a b : Nat, featuresGe a b = true ↔ ∀ i, b.testBit i = true → a.testBit i = true)
    ∧ ((1 : Nat) ≠ 0 ∧ (2 : Nat) ≠ 0 ∧ 1 &&& 2 = 0
        ∧ featuresLe 1 2 = false ∧ featuresGe 1 2 = false) := by
  refine ⟨?_, ?_, by decide⟩
  · intro a b
    rw [featuresLe]
    exact featuresContains_iff b a
  · intro a b
    rw [featuresGe]
    exact featuresContains_iff a b

/-- Claim C7: on the 17-byte buffer of sixteen `'a'` (97) followed by `'X'`
(88), placed at any base address: forward search for `'X'` finds offset 16 at
all three tiers, backward search for `'a'` finds offset 15, and search for
`'Z'` (90) is not-found at all tiers. -/
theorem c7_boundary_straddling (base : Nat) :
    stringFindCharacterSse2 (memOf buf17 base) base 17 88 = some (base + 16)
    ∧ stringFindCharacterAvx2 (memOf buf17 base) base 17 88 = some (base + 16)
    ∧ stringFindCharacterScalar (memOf buf17 base) base 17 88 = some (base + 16)
    ∧ stringFindLastCharacter buf17 97 = some 15
    ∧ stringFindCharacterSse2 (memOf buf17 base) base 17 90 = none
    ∧ stringFindCharacterAvx2 (memOf buf17 base) base 17 90 = none
    ∧ stringFindCharacterScalar (memOf buf17 base) base 17 90 = none
    ∧ stringFindLastCharacter buf17 90 = none := by
  have hX : memchr (memOf buf17 base) base 88 buf17.length = some (base + 16) :=
    memchr_memOf_some buf17 base 88 16 (by decide) (by decide) (by decide)
  have hZ : memchr (memOf buf17 base) base 90 buf17.length = none :=
    memchr_memOf_none buf17 base 90 (by decide)
  refine ⟨?_, ?_, hX, by decide, ?_, ?_, hZ, by decide⟩
  · rw [sse2_eq_memchr]
    exact hX
  · rw [avx2_eq_memchr]
    exact hX
  · rw [sse2_eq_memchr]
    exact hZ
  · rw [avx2_eq_memchr]
    exact hZ

/-- Claim C8: on the buffer "banana", the any-of-set search for the set
`{'n','z'}` finds offset 2 forward and offset 4 backward. -/
theorem c8_banana :
    stringFindAny [98, 97, 110, 97, 110, 97] [110, 122] = some 2
    ∧ stringFindLastAny [98, 97, 110, 97, 110, 97] [110, 122] = some 4 := by
  decide

/-- Claim C9: with an empty character set, stringFindAny and
stringFindLastAny always return not-found, while on a non-empty buffer
stringFindNotAny returns offset 0 and stringFindLastNotAny returns offset
size - 1 (every byte vacuously lies outside the empty set). -/
theorem c9_empty_character_set (s : List Nat) :
    stringFindAny s [] = none
    ∧ stringFindLastAny s [] = none
    ∧ (0 < s.length →
        stringFindNotAny s [] = some 0
        ∧ stringFindLastNotAny s [] = some (s.length - 1)) := by
  refine ⟨?_, ?_, ?_⟩
  · exact findIf_of_false _ (fun b => rfl) s 0
  · show (match s.length with
      | 0 => none
      | n + 1 => findLastIf (fun b => List.contains [] b) s n) = none
    cases s.length with
    | zero => rfl
    | succ n => exact findLastIf_of_false _ (fun b => rfl) s n
  · intro h
    constructor
    · cases s with
      | nil => simp at h
      | cons b rest => rfl
    · show (match s.length with
        | 0 => none
        | n + 1 => findLastIf (fun b => !(List.contains [] b)) s n) = some (s.length - 1)
      cases hl : s.length with
      | zero => omega
      | succ n => simpa using findLastIf_top _ s n rfl

/-- Witness for C9 on a concrete non-empty buffer. -/
theorem c9_witness :
    0 < List.length ([5, 6] : List Nat)
    ∧ stringFindNotAny [5, 6] [] = some 0
    ∧ stringFindLastNotAny [5, 6] [] = some (List.length ([5, 6] : List Nat) - 1) :=
  ⟨by decide, (c9_empty_character_set [5, 6]).2.2 (by decide)⟩

/-- Claim C10: whenever any search returns a non-null result it is in
bounds — the character and any-of-set searches return an offset/address
inside the buffer, and the substring searches (non-empty needle) an offset
whose match lies entirely within the haystack; `none` is the unique
not-found sentinel of the `Option` result type. -/
theorem c10_found_results_in_bounds :
    (∀ (mem : Nat → Nat) (data size c r : Nat),
      stringFindCharacterSse2 mem data size c = some r → data ≤ r ∧ r < data + size)
    ∧ (∀ (mem : Nat → Nat) (data size c r : Nat),
      stringFindCharacterAvx2 mem data size c = some r → data ≤ r ∧ r < data + size)
    ∧ (∀ (mem : Nat → Nat) (data size c r : Nat),
      stringFindCharacterScalar mem data size c = some r → data ≤ r ∧ r < data + size)
    ∧ (∀ (s : List Nat) (c r : Nat), stringFindLastCharacter s c = some r → r < s.length)
    ∧ (∀ (s chars : List Nat) (r : Nat), stringFindAny s chars = some r → r < s.length)
    ∧ (∀ (s chars : List Nat) (r : Nat), stringFindLastAny s chars = some r → r < s.length)
    ∧ (∀ (s chars : List Nat) (r : Nat), stringFindNotAny s chars = some r → r < s.length)
    ∧ (∀ (s chars : List Nat) (r : Nat),
      stringFindLastNotAny s chars = some r → r < s.length)
    ∧ (∀ (s sub : List Nat) (r : Nat), 0 < sub.length →
      stringFindString s sub = some r → r + sub.length ≤ s.length)
    ∧ (∀ (s sub : List Nat) (r : Nat), 0 < sub.length →
      stringFindLastString s sub = some r → r + sub.length ≤ s.length) := by
  have hmem : ∀ (mem : Nat → Nat) (data size c r : Nat),
      memchr mem data c size = some r → data ≤ r ∧ r < data + size := by
    intro mem data size c r h
    rw [memchr_some_iff] at h
    exact ⟨h.1, h.2.1⟩
  have hlast : ∀ (p : Nat → Bool) (s : List Nat) (r : Nat),
      (match s.length with
        | 0 => none
        | n + 1 => findLastIf p s n) = some r → r < s.length := by
    intro p s r h
    cases hl : s.length with
    | zero =>
      rw [hl] at h
      exact Option.noConfusion h
    | succ n =>
      rw [hl] at h
      have := findLastIf_bound p s n r h
      omega
  refine ⟨?_, ?_, ?_, ?_, ?_, ?_, ?_, ?_, ?_, ?_⟩
  · intro mem data size c r h
    rw [sse2_eq_memchr] at h
    exact hmem mem data size c r h
  · intro mem data size c r h
    rw [avx2_eq_memchr] at h
    exact hmem mem data size c r h
  · intro mem data size c r h
    exact hmem mem data size c r h
  · intro s c r h
    exact hlast _ s r h
  · intro s chars r h
    have := findIf_bound _ s 0 r h
    omega
  · intro s chars r h
    exact hlast _ s r h
  · intro s chars r h
    have := findIf_bound _ s 0 r h
    omega
  · intro s chars r h
    exact hlast _ s r h
  · intro s sub r h1 h
    rw [stringFindString] at h
    split at h
    · split at h
      · injection h with h
        omega
      · rw [findStringLoop_some_iff] at h
        have := substringMatchAt_le s sub r h1 h.2.2.1
        omega
    · exact Option.noConfusion h
  · intro s sub r h1 h
    rw [stringFindLastString] at h
    split at h
    · split at h
      · injection h with h
        omega
      · rw [findLastStringLoop_some_iff] at h
        have := substringMatchAt_le s sub r h1 h.2.1
        omega
    · exact Option.noConfusion h

/-- Witness for C10, discharging one concrete found-result hypothesis per
search operation. -/
theorem c10_witness :
    ((4 : Nat) ≤ 4 ∧ (4 : Nat) < 4 + 1)
    ∧ ((4 : Nat) ≤ 4 ∧ (4 : Nat) < 4 + 1)
    ∧ ((4 : Nat) ≤ 4 ∧ (4 : Nat) < 4 + 1)
    ∧ (0 : Nat) < 1
    ∧ (0 : Nat) < 1
    ∧ (0 : Nat) < 1
    ∧ (0 : Nat) < 1
    ∧ (0 : Nat) < 1
    ∧ (0 : Nat) + 1 ≤ 1
    ∧ (0 : Nat) + 1 ≤ 1 :=
  ⟨c10_found_results_in_bounds.1 (fun _ => 7) 4 1 7 4
      ((sse2_eq_memchr (fun _ => 7) 4 1 7).trans (by decide)),
   c10_found_results_in_bounds.2.1 (fun _ => 7) 4 1 7 4
      ((avx2_eq_memchr (fun _ => 7) 4 1 7).trans (by decide)),
   c10_found_results_in_bounds.2.2.1 (fun _ => 7) 4 1 7 4 (by decide),
   c10_found_results_in_bounds.2.2.2.1 [5] 5 0 (by decide),
   c10_found_results_in_bounds.2.2.2.2.1 [5] [5] 0 (by decide),
   c10_found_results_in_bounds.2.2.2.2.2.1 [5] [5] 0 (by decide),
   c10_found_results_in_bounds.2.2.2.2.2.2.1 [5] [6] 0 (by decide),
   c10_found_results_in_bounds.2.2.2.2.2.2.2.1 [5] [6] 0 (by decide),
   c10_found_results_in_bounds.2.2.2.2.2.2.2.2.1 [8] [8] 0 (by decide)
      (by simp [stringFindString, findStringLoop, memcmpEq]),
   c10_found_results_in_bounds.2.2.2.2.2.2.2.2.2 [8] [8] 0 (by decide) (by decide)⟩

end Corrade
